import Mathlib

/-!
Verification of the AuctionExport Lua-to-CSV converter core
(src/auctionexport_to_csv.py).

The Python module is embedded shallowly: the input text is a list of
characters, index-based scanning loops become fuel-indexed recursive
functions (the fuel passed by each wrapper is text length + 1, which is
ample because every loop strictly increases its index on each iteration
and stops once the index reaches the length), and functions that raise
ValueError return an Except value tagged with the distinct error
condition raised at that site.

Modelling notes, faithful to the source unless stated:
  - Python str indices and slices become Nat indices into a List Char;
    s[a:b] is modelled by seg (clamping behaves as in Python).
  - Whitespace predicates (str.isspace, str.strip) are modelled for the
    ASCII whitespace characters space, tab, newline, carriage return,
    vertical tab and form feed; non-ASCII Unicode whitespace is not
    modelled.
  - Python float values are idealized as exact decimal rationals
    (significand and power-of-ten scale, normalized); rounding to IEEE-754
    doubles and the scientific-notation switch of repr for very large or
    very small magnitudes are not modelled.  Every literal examined by the
    claims is exactly representable and its Python str form equals the
    normalized decimal form.
  - Underscore digit separators of Python int and float literals are
    modelled; non-ASCII Unicode digits are not.
  - The Python dict of a parsed row is an association list with first
    occurrence order and overwrite-in-place semantics (dictInsert).
  - The Python set used to collect field names has no defined enumeration
    order; the model enumerates first occurrences.  The resulting schema
    does not depend on the enumeration order (preferredFieldOrder keeps a
    fixed prefix order and sorts the remainder), see
    preferredFieldOrder_perm below.
-/

/-- The distinct error conditions raised by the converter core.  Each
constructor corresponds to one ValueError site in the source. -/
inductive PyError where
  /-- extract_balanced_braces: start must point at an opening brace -/
  | startNotBrace
  /-- extract_balanced_braces: unbalanced braces while parsing Lua table -/
  | unbalancedBraces
  /-- find_rows_block: could not find the rows key in the input -/
  | rowsKeyNotFound
  /-- find_rows_block: no opening brace after the rows key -/
  | noBraceAfterRows
  /-- extract_row_tables: rows_block is not a Lua table -/
  | rowsBlockNotTable
  /-- parse_row_table: row_table is not a Lua table -/
  | rowTableNotTable
  /-- convert: parsed 0 rows -/
  | noRowsParsed
deriving DecidableEq

deriving instance DecidableEq for Except

/-- Python str.isspace restricted to ASCII whitespace characters. -/
def pyIsSpace (c : Char) : Bool :=
  c == ' ' || c == '\t' || c == '\n' || c == '\r' || c == '\x0b' || c == '\x0c'

/-- Python str.strip: remove leading and trailing whitespace. -/
def pyStrip (l : List Char) : List Char :=
  ((l.dropWhile pyIsSpace).reverse.dropWhile pyIsSpace).reverse

/-- Python slice s[a:b]. -/
def seg (s : List Char) (a b : Nat) : List Char :=
  (s.drop a).take (b - a)

/-- Characters consumed by the scanning loop of _skip_lua_string, counted
from the position just after the opening quote: a backslash always skips
two positions (even when it is the final character, in which case the
Python index overshoots the end by one), an unescaped quote closes the
string, any other character advances by one. -/
def skipStrCount : List Char → Nat
  | [] => 0
  | '\\' :: rest =>
    match rest with
    | [] => 2
    | _ :: rest2 => 2 + skipStrCount rest2
  | '"' :: _ => 1
  | _ :: rest => 1 + skipStrCount rest

/-- _skip_lua_string(text, i): assuming text[i] is a quote, return the
index just past the closing unescaped quote, or an index at or past the
end of the text when the string is unterminated. -/
def skipLuaString (text : List Char) (i : Nat) : Nat :=
  i + 1 + skipStrCount (text.drop (i + 1))

/-- Scanning loop of _extract_balanced_braces: index i, signed depth, with
string contents skipped via skipLuaString so braces inside quoted strings
do not perturb the depth.  Returns the slice from start through the brace
that returns the depth to zero.  Fuel exhaustion (unreachable from the
wrapper, which passes text length + 1) reports the same error as running
off the end of the text. -/
def extractBalAux (text : List Char) (start : Nat) :
    Nat → Nat → Int → Except PyError (List Char)
  | 0, _, _ => .error .unbalancedBraces
  | fuel + 1, i, depth =>
    if i < text.length then
      let ch := text.getD i ' '
      if ch = '"' then
        extractBalAux text start fuel (skipLuaString text i) depth
      else if ch = '{' then
        extractBalAux text start fuel (i + 1) (depth + 1)
      else if ch = '}' then
        if depth - 1 = 0 then .ok (seg text start (i + 1))
        else extractBalAux text start fuel (i + 1) (depth - 1)
      else
        extractBalAux text start fuel (i + 1) depth
    else .error .unbalancedBraces

/-- _extract_balanced_braces(text, start): requires text[start] to be an
opening brace, then scans with depth counting (strings skipped). -/
def extractBalancedBraces (text : List Char) (start : Nat) :
    Except PyError (List Char) :=
  if start < text.length ∧ text.getD start ' ' = '{' then
    extractBalAux text start (text.length + 1) start 0
  else .error .startNotBrace

/-- Scan of str.find(needle, start): first index at which needle is a
prefix of the remaining text. -/
def findSubAux (needle : List Char) : List Char → Nat → Option Nat
  | [], _ => none
  | c :: rest, idx =>
    if needle.isPrefixOf (c :: rest) then some idx
    else findSubAux needle rest (idx + 1)

/-- Python text.find(needle, start) for a non-empty needle. -/
def findSub (s needle : List Char) (start : Nat) : Option Nat :=
  findSubAux needle (s.drop start) start

/-- _find_rows_block(text): locate the literal rows key marker, then the
next opening brace at or after it, then extract the balanced span. -/
def findRowsBlock (text : List Char) : Except PyError (List Char) :=
  match findSub text "[\"rows\"]".data 0 with
  | none => .error .rowsKeyNotFound
  | some rowsKeyPos =>
    match findSub text ['{'] rowsKeyPos with
    | none => .error .noBraceAfterRows
    | some bracePos => extractBalancedBraces text bracePos

/-- Scanning loop of _extract_row_tables over the interior of the rows
block: whitespace and commas are separators, quoted strings are skipped
atomically, an opening brace delegates to extractBalancedBraces and the
captured element is appended, any other character is skipped defensively.
Fuel exhaustion (unreachable from the wrapper) ends the scan like the end
of the input. -/
def extractRowTablesAux (inner : List Char) :
    Nat → Nat → List (List Char) → Except PyError (List (List Char))
  | 0, _, acc => .ok acc
  | fuel + 1, i, acc =>
    if i < inner.length then
      let ch := inner.getD i ' '
      if pyIsSpace ch || ch == ',' then
        extractRowTablesAux inner fuel (i + 1) acc
      else if ch = '"' then
        extractRowTablesAux inner fuel (skipLuaString inner i) acc
      else if ch ≠ '{' then
        extractRowTablesAux inner fuel (i + 1) acc
      else
        match extractBalancedBraces inner i with
        | .error e => .error e
        | .ok rowText =>
          extractRowTablesAux inner fuel (i + rowText.length) (acc ++ [rowText])
    else .ok acc

/-- _extract_row_tables(rows_block): strip, require the block to be brace
delimited, drop the outer braces and split the top-level elements. -/
def extractRowTables (rowsBlock : List Char) : Except PyError (List (List Char)) :=
  let inner := pyStrip rowsBlock
  if inner.headD ' ' = '{' ∧ inner.getLast? = some '}' then
    let interior := (inner.drop 1).dropLast
    extractRowTablesAux interior (interior.length + 1) 0 []
  else .error .rowsBlockNotTable

/-- Decoding loop of _parse_lua_string on the characters after the opening
quote: returns the decoded characters and the count of consumed characters
(including the closing quote when present).  An escaped n, r, t decodes to
the control character; an escaped backslash or quote decodes to itself;
any other escaped character is passed through; a trailing backslash with
nothing after it is kept literally (the Python loop falls through to the
plain-character branch in that case). -/
def parseLuaStringAux : List Char → List Char × Nat
  | [] => ([], 0)
  | '\\' :: rest =>
    match rest with
    | [] => (['\\'], 1)
    | nxt :: rest2 =>
      let dec := if nxt = 'n' then '\n'
        else if nxt = 'r' then '\r'
        else if nxt = 't' then '\t'
        else nxt
      let (out, n) := parseLuaStringAux rest2
      (dec :: out, n + 2)
  | '"' :: _ => ([], 1)
  | c :: rest =>
    let (out, n) := parseLuaStringAux rest
    (c :: out, n + 1)

/-- _parse_lua_string(text, i): assuming text[i] is a quote, decode the
string literal and return it with the index just past the closing quote
(or the end of the text when unterminated). -/
def parseLuaString (text : List Char) (i : Nat) : String × Nat :=
  let (out, n) := parseLuaStringAux (text.drop (i + 1))
  (String.mk out, i + 1 + n)

/-- The value of a decimal digit character. -/
def digitVal? (c : Char) : Option Nat :=
  if c.isDigit then some (c.toNat - 48) else none

/-- The value of a hexadecimal digit character. -/
def hexVal? (c : Char) : Option Nat :=
  if c.isDigit then some (c.toNat - 48)
  else if 'a' ≤ c ∧ c ≤ 'f' then some (c.toNat - 87)
  else if 'A' ≤ c ∧ c ≤ 'F' then some (c.toNat - 55)
  else none

/-- A run of digits in a given base with the Python underscore rule: a
single underscore may stand between two digits.  Accumulates the value and
the number of digits; fails on a malformed run. -/
def runValAux (dv : Char → Option Nat) (base : Nat) :
    List Char → Nat → Nat → Option (Nat × Nat)
  | [], acc, cnt => some (acc, cnt)
  | '_' :: rest, acc, cnt =>
    match rest with
    | [] => none
    | d :: rest2 =>
      match dv d with
      | some v => runValAux dv base rest2 (acc * base + v) (cnt + 1)
      | none => none
  | c :: rest, acc, cnt =>
    match dv c with
    | some v => runValAux dv base rest (acc * base + v) (cnt + 1)
    | none => none

/-- A non-empty decimal digit run that must not begin with an underscore. -/
def decRunVal : List Char → Option (Nat × Nat)
  | [] => none
  | '_' :: _ => none
  | l => runValAux digitVal? 10 l 0 0

/-- A non-empty hexadecimal digit run; Python allows an underscore
directly after the 0x base prefix, so a leading underscore is accepted
provided a digit follows it. -/
def hexRunVal : List Char → Option (Nat × Nat)
  | [] => none
  | l => runValAux hexVal? 16 l 0 0

/-- Python int(token, 16) for the tokens reaching the hexadecimal branch
of _parse_scalar: an optional minus sign, the lowercase 0x prefix, then a
non-empty hexadecimal digit run. -/
def parseHexInt (t : List Char) : Option Int :=
  let (neg, rest) := match t with
    | '-' :: r => (true, r)
    | r => (false, r)
  match rest with
  | '0' :: 'x' :: ds =>
    match hexRunVal ds with
    | some (v, _) => some (if neg then -(v : Int) else (v : Int))
    | none => none
  | _ => none

/-- Python int(token) base 10: an optional sign then a non-empty decimal
digit run. -/
def parseDecInt (t : List Char) : Option Int :=
  let (neg, rest) := match t with
    | '-' :: r => (true, r)
    | '+' :: r => (false, r)
    | r => (false, r)
  match decRunVal rest with
  | some (v, _) => some (if neg then -(v : Int) else (v : Int))
  | none => none

/-- Strip factors of ten from an exact decimal significand and scale, so
that the pair is a normal form of the represented rational.  Mirrors the
shortest-representation property of Python float repr on the short exact
decimals the converter meets. -/
def normFloat : Int → Nat → Int × Nat
  | m, 0 => (m, 0)
  | m, s + 1 => if m % 10 = 0 then normFloat (m / 10) s else (m, s + 1)

/-- Python float(token) idealized as an exact decimal: optional sign, an
integer digit run and/or a fractional digit run separated by a dot, and an
optional decimal exponent.  Returns the normalized significand and
power-of-ten scale, or none when the literal is malformed.  The inf and
nan word forms never reach the float branch of _parse_scalar because they
contain no dot or exponent letter. -/
def parseFloat (t : List Char) : Option (Int × Nat) :=
  let (neg, rest) := match t with
    | '-' :: r => (true, r)
    | '+' :: r => (false, r)
    | r => (false, r)
  let intChars := rest.takeWhile (fun c => c.isDigit || c == '_')
  let r1 := rest.drop intChars.length
  let withMant := fun (mant : Nat) (fracCnt : Nat) (r3 : List Char) =>
    let finish := fun (e : Int) =>
      let m : Int := if neg then -(mant : Int) else (mant : Int)
      let exp10 : Int := e - (fracCnt : Int)
      if 0 ≤ exp10 then some (m * (10 : Int) ^ exp10.toNat, 0)
      else some (normFloat m exp10.natAbs)
    match r3 with
    | [] => finish 0
    | 'e' :: r4 =>
      let (eneg, r5) := match r4 with
        | '-' :: r => (true, (r : List Char))
        | '+' :: r => (false, r)
        | r => (false, r)
      match decRunVal r5 with
      | some (ev, _) => finish (if eneg then -(ev : Int) else (ev : Int))
      | none => none
    | 'E' :: r4 =>
      let (eneg, r5) := match r4 with
        | '-' :: r => (true, (r : List Char))
        | '+' :: r => (false, r)
        | r => (false, r)
      match decRunVal r5 with
      | some (ev, _) => finish (if eneg then -(ev : Int) else (ev : Int))
      | none => none
    | _ => none
  match r1 with
  | '.' :: r2 =>
    let fracChars := r2.takeWhile (fun c => c.isDigit || c == '_')
    let r3 := r2.drop fracChars.length
    if intChars.isEmpty ∧ fracChars.isEmpty then none
    else
      let ip? := if intChars.isEmpty then some (0, 0) else decRunVal intChars
      let fp? := if fracChars.isEmpty then some (0, 0) else decRunVal fracChars
      match ip?, fp? with
      | some (iv, _), some (fv, fc) => withMant (iv * 10 ^ fc + fv) fc r3
      | _, _ => none
  | _ =>
    if intChars.isEmpty then none
    else
      match decRunVal intChars with
      | some (iv, _) => withMant iv 0 r1
      | none => none

/-- The tagged union of values a parsed record field can hold.  Python
bool, int, None, str are mapped directly; float is idealized as an exact
normalized decimal (significand and power-of-ten scale); a nested table is
kept verbatim as raw text. -/
inductive Value where
  | nil
  | bool (b : Bool)
  | int (n : Int)
  | float (m : Int) (s : Nat)
  | str (s : String)
  | rawTable (s : String)
deriving DecidableEq

/-- _parse_scalar(token): strip, classify the reserved words true, false
and nil, then try hexadecimal integer (for the lowercase 0x or -0x
prefix), float (when a dot or exponent letter occurs) or decimal integer,
falling back to the stripped token text on any parse failure.  An empty
token is empty text, not nil. -/
def parseScalar (token : String) : Value :=
  let tl := pyStrip token.data
  let t := String.mk tl
  if tl.isEmpty then .str ""
  else if t = "true" then .bool true
  else if t = "false" then .bool false
  else if t = "nil" then .nil
  else if "0x".data.isPrefixOf tl ∨ "-0x".data.isPrefixOf tl then
    match parseHexInt tl with
    | some n => .int n
    | none => .str t
  else if tl.any (fun c => c == '.' || c == 'e' || c == 'E') then
    match parseFloat tl with
    | some (m, s) => .float m s
    | none => .str t
  else
    match parseDecInt tl with
    | some n => .int n
    | none => .str t

/-- Python str of an idealized float in plain decimal form (an integral
value gains a trailing .0, exactly as Python repr does in the plain
range). -/
def floatStr (m : Int) (s : Nat) : String :=
  let sign := if m < 0 then "-" else ""
  let ds := toString m.natAbs
  if s = 0 then sign ++ ds ++ ".0"
  else if ds.length ≤ s then
    sign ++ "0." ++ String.mk (List.replicate (s - ds.length) '0') ++ ds
  else
    sign ++ ds.take (ds.length - s) ++ "." ++ ds.drop (ds.length - s)

/-- The text the CSV writer emits for one cell value: convert applies
None to empty text first, then csv applies Python str, which renders
booleans capitalized, integers in decimal and strings verbatim. -/
def valueStr : Value → String
  | .nil => ""
  | .bool true => "True"
  | .bool false => "False"
  | .int n => toString n
  | .float m s => floatStr m s
  | .str s => s
  | .rawTable s => s

/-- A parsed record: field names to values in first-discovery order. -/
abbrev Record : Type := List (String × Value)

/-- Python dict assignment row[key] = value: overwrite in place when the
key is present, append otherwise. -/
def dictInsert (row : Record) (k : String) (v : Value) : Record :=
  if row.any (fun kv => kv.1 == k) then
    row.map (fun kv => if kv.1 == k then (k, v) else kv)
  else row ++ [(k, v)]

/-- Python dict lookup row.get(k). -/
def lookupValue (k : String) (row : Record) : Option Value :=
  (row.find? (fun kv => kv.1 == k)).map (fun kv => kv.2)

/-- The field names of a record in order. -/
def recordKeys (row : Record) : List String :=
  row.map (fun kv => kv.1)

/-- Member loop of _parse_row_table over the interior s of a row table:
find the next bracket-quote key marker, the closing quote-bracket, the
equals sign, skip spaces, then read the value (a decoded string literal, a
raw balanced nested table, or a bare token handed to the scalar
interpreter after scanning to the next comma, line break or closing
brace).  Any missing piece ends the loop with the fields accumulated so
far.  Fuel exhaustion (unreachable from the wrapper) likewise returns the
accumulated record. -/
def parseRowTableAux (s : List Char) :
    Nat → Nat → Record → Except PyError Record
  | 0, _, row => .ok row
  | fuel + 1, i, row =>
    if i < s.length then
      match findSub s ['[', '"'] i with
      | none => .ok row
      | some keyStart =>
        match findSub s ['"', ']'] (keyStart + 2) with
        | none => .ok row
        | some keyEnd =>
          let key := String.mk (seg s (keyStart + 2) keyEnd)
          match findSub s ['='] (keyEnd + 2) with
          | none => .ok row
          | some eqPos =>
            let j := eqPos + 1 + ((s.drop (eqPos + 1)).takeWhile pyIsSpace).length
            if j < s.length then
              let ch := s.getD j ' '
              if ch = '"' then
                parseRowTableAux s fuel (parseLuaString s j).2
                  (dictInsert row key (.str (parseLuaString s j).1))
              else if ch = '{' then
                match extractBalancedBraces s j with
                | .error e => .error e
                | .ok raw =>
                  parseRowTableAux s fuel (j + raw.length)
                    (dictInsert row key (.rawTable (String.mk raw)))
              else
                let stop := fun (c : Char) =>
                  c == ',' || c == '\n' || c == '\r' || c == '}'
                let k := j + ((s.drop j).takeWhile (fun c => !stop c)).length
                parseRowTableAux s fuel k
                  (dictInsert row key (parseScalar (String.mk (seg s j k))))
            else .ok row
    else .ok row

/-- _parse_row_table(row_table): strip, require the span to be brace
delimited, drop the outer braces and run the member loop. -/
def parseRowTable (rowTable : List Char) : Except PyError Record :=
  let s := pyStrip rowTable
  if s.headD ' ' = '{' ∧ s.getLast? = some '}' then
    let interior := (s.drop 1).dropLast
    parseRowTableAux interior (interior.length + 1) 0 []
  else .error .rowTableNotTable

/-- The fixed preferred column prefix of _preferred_field_order. -/
def preferredList : List String :=
  ["index", "name", "itemLink", "itemId", "count", "quality", "timeLeft",
   "minBidCopper", "buyoutCopper", "hasAllInfo", "scannedAtUtc"]

/-- Lexicographic comparison of two strings by character code points,
as Python compares strings. -/
def charListLe : List Char → List Char → Bool
  | [], _ => true
  | _ :: _, [] => false
  | a :: as, b :: bs =>
    if a.toNat < b.toNat then true
    else if b.toNat < a.toNat then false
    else charListLe as bs

/-- String comparison in the code point order Python uses. -/
def strLe (a b : String) : Bool :=
  charListLe a.data b.data

/-- Inserting into a sorted list before the first element not below the
inserted one (so the sort below is stable, as Python sorted is). -/
def insertSorted (x : String) : List String → List String
  | [] => [x]
  | y :: ys => if strLe x y then x :: y :: ys else y :: insertSorted x ys

/-- Python sorted on strings: a stable insertion sort under the total
code point order.  It agrees with every stable sort, and the lists sorted
here are duplicate free. -/
def sortedLex : List String → List String
  | [] => []
  | x :: xs => insertSorted x (sortedLex xs)

/-- _preferred_field_order(fields): the preferred names present, in the
fixed preferred order, followed by the remaining names sorted. -/
def preferredFieldOrder (fields : List String) : List String :=
  let remaining := fields.filter (fun f => !preferredList.contains f)
  preferredList.filter (fun f => fields.contains f) ++ sortedLex remaining

/-- The union of field names over all records, enumerated by first
occurrence (the Python set has no defined enumeration order; the schema
does not depend on the choice, see preferredFieldOrder_perm). -/
def fieldUnion (records : List Record) : List String :=
  (records.flatMap recordKeys).dedup

/-- One CSV data row as csv.DictWriter emits it for a record: one cell per
schema column, the stringified value when the record has the column and
empty text otherwise; keys outside the schema are ignored. -/
def emitRow (fieldnames : List String) (row : Record) : List String :=
  fieldnames.map (fun k =>
    match lookupValue k row with
    | some v => valueStr v
    | none => "")

/-- Parsing every row table span in order, propagating the first error. -/
def parseAll : List (List Char) → Except PyError (List Record)
  | [] => .ok []
  | t :: ts =>
    match parseRowTable t with
    | .error e => .error e
    | .ok r =>
      match parseAll ts with
      | .error e => .error e
      | .ok rs => .ok (r :: rs)

/-- The outcome of one conversion: the unified schema, the parsed records
and the emitted CSV data rows. -/
structure ConvertResult where
  fieldnames : List String
  records : List Record
  csvRows : List (List String)
deriving DecidableEq

/-- convert(input_text): the pure conversion pipeline of the source
convert function, with the file reading and writing stripped away: locate
the rows block, split it into row table spans, parse every span, fail when
zero records were parsed, build the schema as the union of field names
with the seller field discarded and the preferred-then-sorted ordering
applied, and emit one CSV row per record with the seller field filtered
out. -/
def convert (text : List Char) : Except PyError ConvertResult :=
  match findRowsBlock text with
  | .error e => .error e
  | .ok rowsBlock =>
    match extractRowTables rowsBlock with
    | .error e => .error e
    | .ok rowTables =>
      match parseAll rowTables with
      | .error e => .error e
      | .ok rows =>
        if rows.isEmpty then .error .noRowsParsed
        else
          let fieldnamesSet := (fieldUnion rows).filter (fun f => f ≠ "seller")
          let fieldnames := preferredFieldOrder fieldnamesSet
          let csv := rows.map (fun r =>
            emitRow fieldnames (r.filter (fun kv => kv.1 ≠ "seller")))
          .ok ⟨fieldnames, rows, csv⟩

/-- The schema as the specification words it: every preferred-order name
that is present among the field names of the records and not denylisted,
in the fixed preferred order, followed by all remaining present
non-denylisted names sorted lexicographically. -/
def specUnify (records : List Record) : List String :=
  preferredList.filter
    (fun f => !(f == "seller") && records.any (fun r => (recordKeys r).contains f)) ++
  sortedLex ((records.flatMap recordKeys).dedup.filter
    (fun f => !(f == "seller") && !preferredList.contains f))

/-- A span that begins with an opening brace and ends with a closing
brace. -/
def BraceDelimited (s : List Char) : Prop :=
  s ≠ [] ∧ s.headD ' ' = '{' ∧ s.getLast? = some '}'

/-- A sample document: a rows array of two well-formed records over the
fields name, index and z. -/
def sampleText : List Char :=
  "[\"rows\"] = \x7b\x7b[\"name\"] = \"ab\", [\"index\"] = 2\x7d, \x7b[\"z\"] = nil\x7d\x7d".data

/-- The conversion outcome on sampleText. -/
def sampleResult : ConvertResult :=
  ⟨["index", "name", "z"],
   [[("name", Value.str "ab"), ("index", Value.int 2)], [("z", Value.nil)]],
   [["2", "ab", ""], ["", "", ""]]⟩

/-- A sample document whose single record holds only the denylisted
seller field. -/
def sellerOnlyText : List Char :=
  "[\"rows\"] = \x7b\x7b[\"seller\"] = 1\x7d\x7d".data

/-- A sample document whose two records hold only the denylisted seller
field. -/
def sellerPairText : List Char :=
  "[\"rows\"] = \x7b\x7b[\"seller\"] = \"x\"\x7d, \x7b[\"seller\"] = \"y\"\x7d\x7d".data

/-- A sample document with an empty rows array. -/
def emptyRowsText : List Char :=
  "[\"rows\"] = \x7b\x7d".data

/-- A sample document whose single record carries seller and name. -/
def sellerNameText : List Char :=
  "[\"rows\"] = \x7b\x7b[\"seller\"] = \"bob\", [\"name\"] = \"ore\"\x7d\x7d".data

/-- The rows block located inside sellerNameText. -/
def sellerNameBlock : List Char :=
  "\x7b\x7b[\"seller\"] = \"bob\", [\"name\"] = \"ore\"\x7d\x7d".data

/-- The single row table span split out of sellerNameBlock. -/
def sellerNameSpan : List Char :=
  "\x7b[\"seller\"] = \"bob\", [\"name\"] = \"ore\"\x7d".data

theorem find?_map_replace (row : Record) (k : String) (v : Value) :
    row.any (fun kv => kv.1 == k) = true →
    (row.map (fun kv => if kv.1 == k then (k, v) else kv)).find?
      (fun kv => kv.1 == k) = some (k, v) := by
  intro h
  induction row with
  | nil => simp at h
  | cons kv rest ih =>
    rw [List.map_cons]
    by_cases hk : (kv.1 == k) = true
    · rw [if_pos hk]
      exact List.find?_cons_of_pos _ (by simp)
    · rw [if_neg hk]
      rw [List.find?_cons_of_neg _ (by simpa using hk)]
      simp only [List.any_cons, hk, Bool.false_or] at h
      exact ih h

theorem find?_append_missing (row : Record) (k : String) (v : Value) :
    row.any (fun kv => kv.1 == k) = false →
    (row ++ [(k, v)]).find? (fun kv => kv.1 == k) = some (k, v) := by
  intro h
  induction row with
  | nil => simp
  | cons kv rest ih =>
    simp only [List.any_cons, Bool.or_eq_false_iff] at h
    rw [List.cons_append, List.find?_cons_of_neg _ (by simp [h.1])]
    exact ih h.2

/-- Assigning a value to a key in a row makes it the value looked up for
that key, whether or not the key was already present. -/
theorem lookupValue_dictInsert (row : Record) (k : String) (v : Value) :
    lookupValue k (dictInsert row k v) = some v := by
  unfold dictInsert lookupValue
  by_cases h : row.any (fun kv => kv.1 == k)
  · rw [if_pos h, find?_map_replace row k v h]
    rfl
  · simp only [Bool.not_eq_true] at h
    rw [if_neg (by simp [h]), find?_append_missing row k v h]
    rfl

/-- Claim C10: when the same field name appears in more than one member of
a row table, the record parser keeps the value of the last occurrence:
later assignments overwrite earlier ones.  The concrete span with two
members for the field a parses to the single field a holding 2, and in
general the value just assigned by dictInsert is the value subsequently
looked up. -/
theorem last_occurrence_wins :
    parseRowTable "\x7b[\"a\"] = 1, [\"a\"] = 2\x7d".data =
      .ok [("a", Value.int 2)] ∧
    ∀ (row : Record) (k : String) (v : Value),
      lookupValue k (dictInsert row k v) = some v :=
  ⟨by decide, lookupValue_dictInsert⟩

/-- Claim C2 (corrected): the scalar interpreter tags the seven sample
literals as claimed (boolean, boolean, nil, integer, hexadecimal integer,
float, text), but the re-serialized forms are True, False, empty, 123,
-31, 3.14, hello: Python str capitalizes booleans, and the hexadecimal
literal -0x1F denotes minus 31, not 31. -/
theorem scalar_roundtrip :
    parseScalar "true" = .bool true ∧
    parseScalar "false" = .bool false ∧
    parseScalar "nil" = .nil ∧
    parseScalar "123" = .int 123 ∧
    parseScalar "-0x1F" = .int (-31) ∧
    parseScalar "3.14" = .float 314 2 ∧
    parseScalar "hello" = .str "hello" ∧
    (["true", "false", "nil", "123", "-0x1F", "3.14", "hello"].map
      (fun t => valueStr (parseScalar t))) =
      ["True", "False", "", "123", "-31", "3.14", "hello"] := by
  decide

/-- Counterexample to claim C2 as stated: the claimed serialized forms
true and 31 are not produced; the code emits True for the boolean and -31
for the hexadecimal literal with a minus sign. -/
theorem scalar_roundtrip_counterexample :
    valueStr (parseScalar "true") = "True" ∧ "True" ≠ "true" ∧
    valueStr (parseScalar "-0x1F") = "-31" ∧ "-31" ≠ "31" := by
  decide

/-- Claim C5: balanced-brace extraction is unaffected by braces inside
quoted strings: on the specification sample with nested tables and a
closing brace inside a string it returns the whole span unchanged, and on
the truncated sample whose depth never returns to zero it fails with the
unbalanced-structure error. -/
theorem extract_balanced_examples :
    extractBalancedBraces "\x7ba=\x7bb=\x7b\x7d\x7d,c=\"\x7d\"\x7d".data 0 =
      .ok "\x7ba=\x7bb=\x7b\x7d\x7d,c=\"\x7d\"\x7d".data ∧
    extractBalancedBraces "\x7ba=\x7bb=".data 0 = .error .unbalancedBraces := by
  decide

/-- Counterexample to claim C4 as stated: when the character after the
opening quote is a backslash at the very end of the text, the two-byte
escape skip moves the index to text length plus one, which is neither an
index just past a closing quote nor the text length. -/
theorem skip_string_overshoot :
    skipLuaString ['"', '\\'] 0 = 3 ∧
    (['"', '\\'] : List Char).length = 2 ∧ (3 : Nat) ≠ 2 := by
  decide

theorem getD_drop (l : List Char) (n m : Nat) (d : Char) :
    (l.drop n).getD m d = l.getD (n + m) d := by
  simp [List.getD_eq_getElem?_getD, List.getElem?_drop]

theorem skipStrCount_le (l : List Char) : skipStrCount l ≤ l.length + 1 := by
  induction l using skipStrCount.induct with
  | case1 => simp [skipStrCount]
  | case2 => simp [skipStrCount]
  | case3 head rest2 ih =>
    simp only [skipStrCount, List.length_cons]
    omega
  | case4 tail => simp [skipStrCount]
  | case5 head rest h1 h2 ih =>
    rw [show skipStrCount (head :: rest) = 1 + skipStrCount rest by
      simp [skipStrCount]]
    simp only [List.length_cons]
    omega

theorem skipStrCount_lt_quote (l : List Char) :
    skipStrCount l < l.length →
    1 ≤ skipStrCount l ∧ l.getD (skipStrCount l - 1) ' ' = '"' := by
  induction l using skipStrCount.induct with
  | case1 => simp [skipStrCount]
  | case2 => simp [skipStrCount]
  | case3 head rest2 ih =>
    simp only [skipStrCount, List.length_cons]
    intro h
    obtain ⟨ih1, ih2⟩ := ih (by omega)
    refine ⟨by omega, ?_⟩
    rw [show 2 + skipStrCount rest2 - 1 = (skipStrCount rest2 - 1) + 1 + 1 by omega]
    simpa using ih2
  | case4 tail =>
    simp [skipStrCount]
  | case5 head rest h1 h2 ih =>
    rw [show skipStrCount (head :: rest) = 1 + skipStrCount rest by
      simp [skipStrCount]]
    simp only [List.length_cons]
    intro h
    obtain ⟨ih1, ih2⟩ := ih (by omega)
    refine ⟨by omega, ?_⟩
    rw [show 1 + skipStrCount rest - 1 = (skipStrCount rest - 1) + 1 by omega]
    simpa using ih2

/-- Claim C4 (amended): with the cursor on a quote character, the string
skip always terminates and moves strictly forward; it stops at an index
bounded by text length plus one (length or length plus one when the
string is unterminated, one past the closing quote otherwise); whenever
the returned index is below the text length it is just past a closing
quote; and a backslash escapes exactly the next character, a two-byte
skip regardless of what that character is. -/
theorem skip_string_spec (text : List Char) (i : Nat)
    (hi : i < text.length) (_hq : text.getD i ' ' = '"') :
    i < skipLuaString text i ∧
    skipLuaString text i ≤ text.length + 1 ∧
    (skipLuaString text i < text.length →
      text.getD (skipLuaString text i - 1) ' ' = '"') ∧
    (∀ (c : Char) (rest : List Char),
      skipStrCount ('\\' :: c :: rest) = 2 + skipStrCount rest) := by
  refine ⟨?_, ?_, ?_, ?_⟩
  · unfold skipLuaString
    omega
  · unfold skipLuaString
    have h1 := skipStrCount_le (text.drop (i + 1))
    have h2 : (text.drop (i + 1)).length = text.length - (i + 1) := by
      simp
    omega
  · intro hlt
    unfold skipLuaString at hlt ⊢
    have h2 : (text.drop (i + 1)).length = text.length - (i + 1) := by
      simp
    have h3 := skipStrCount_lt_quote (text.drop (i + 1)) (by omega)
    obtain ⟨h4, h5⟩ := h3
    rw [getD_drop] at h5
    rw [show i + 1 + skipStrCount (text.drop (i + 1)) - 1 =
      i + 1 + (skipStrCount (text.drop (i + 1)) - 1) by omega]
    exact h5
  · intro c rest
    simp [skipStrCount]

/-- Witness for claim C4 at a concrete terminated string literal followed
by further text. -/
theorem skip_string_spec_witness :
    0 < skipLuaString "\"a\"x".data 0 ∧
    skipLuaString "\"a\"x".data 0 ≤ "\"a\"x".data.length + 1 ∧
    "\"a\"x".data.getD (skipLuaString "\"a\"x".data 0 - 1) ' ' = '"' ∧
    skipStrCount ('\\' :: 'q' :: []) = 2 + skipStrCount [] := by
  have h := skip_string_spec "\"a\"x".data 0 (by decide) (by decide)
  exact ⟨h.1, h.2.1, h.2.2.1 (by decide), h.2.2.2 'q' []⟩

/-- Claim C8: conversion is deterministic; two conversions of the same
input text agree on the schema, the records and the emitted rows with
their order.  In the model convert is a pure function of the text, and
the schema construction is in addition independent of the unordered set
enumeration, see preferredFieldOrder_perm. -/
theorem convert_deterministic (text : List Char) (r1 r2 : ConvertResult)
    (h1 : convert text = .ok r1) (h2 : convert text = .ok r2) :
    r1.fieldnames = r2.fieldnames ∧ r1.records = r2.records ∧
    r1.csvRows = r2.csvRows := by
  rw [h1] at h2
  injection h2 with h
  rw [h]
  exact ⟨rfl, rfl, rfl⟩

/-- Witness for claim C8 on the sample document. -/
theorem convert_deterministic_witness :
    sampleResult.fieldnames = sampleResult.fieldnames ∧
    sampleResult.records = sampleResult.records ∧
    sampleResult.csvRows = sampleResult.csvRows :=
  convert_deterministic sampleText sampleResult sampleResult
    (by decide) (by decide)

theorem parseAll_length (spans : List (List Char)) (rows : List Record)
    (h : parseAll spans = .ok rows) : rows.length = spans.length := by
  induction spans generalizing rows with
  | nil =>
    unfold parseAll at h
    injection h with h
    subst h
    rfl
  | cons t ts ih =>
    unfold parseAll at h
    cases hp : parseRowTable t with
    | error e => rw [hp] at h; cases h
    | ok r =>
      rw [hp] at h
      cases hq : parseAll ts with
      | error e => rw [hq] at h; cases h
      | ok rs =>
        rw [hq] at h
        injection h with h
        rw [← h, List.length_cons, List.length_cons, ih rs hq]

theorem parseAll_ok_of_isOk (spans : List (List Char))
    (h : ∀ s ∈ spans, (parseRowTable s).isOk) :
    ∃ rows, parseAll spans = .ok rows := by
  induction spans with
  | nil => exact ⟨[], rfl⟩
  | cons t ts ih =>
    have ht := h t (List.mem_cons_self t ts)
    cases hp : parseRowTable t with
    | error e => rw [hp] at ht; cases ht
    | ok r =>
      obtain ⟨rs, hrs⟩ := ih (fun s hs => h s (List.mem_cons_of_mem t hs))
      refine ⟨r :: rs, ?_⟩
      unfold parseAll
      rw [hp, hrs]

theorem parseAll_mem (spans : List (List Char)) (rows : List Record)
    (h : parseAll spans = .ok rows) :
    ∀ s ∈ spans, ∃ r ∈ rows, parseRowTable s = .ok r := by
  induction spans generalizing rows with
  | nil => intro s hs; cases hs
  | cons t ts ih =>
    unfold parseAll at h
    cases hp : parseRowTable t with
    | error e => rw [hp] at h; cases h
    | ok r =>
      rw [hp] at h
      cases hq : parseAll ts with
      | error e => rw [hq] at h; cases h
      | ok rs =>
        rw [hq] at h
        injection h with h
        intro s hs
        rcases List.mem_cons.1 hs with hs | hs
        · exact ⟨r, by rw [← h]; exact List.mem_cons_self r rs, by rw [hs, hp]⟩
        · obtain ⟨r2, hr2, hpr2⟩ := ih rs hq s hs
          exact ⟨r2, by rw [← h]; exact List.mem_cons_of_mem r hr2, hpr2⟩

theorem mem_insertSorted (x a : String) (l : List String) :
    a ∈ insertSorted x l ↔ a = x ∨ a ∈ l := by
  induction l with
  | nil => simp [insertSorted]
  | cons y ys ih =>
    unfold insertSorted
    by_cases h : strLe x y
    · simp [h]
    · simp only [h, Bool.false_eq_true, if_false, List.mem_cons, ih]
      tauto

theorem mem_sortedLex (a : String) (l : List String) :
    a ∈ sortedLex l ↔ a ∈ l := by
  induction l with
  | nil => simp [sortedLex]
  | cons x xs ih =>
    unfold sortedLex
    rw [mem_insertSorted, ih, List.mem_cons]

theorem preferredFieldOrder_ne_nil (f : String) (fields : List String)
    (hf : f ∈ fields) : preferredFieldOrder fields ≠ [] := by
  unfold preferredFieldOrder
  intro h
  rw [List.append_eq_nil] at h
  obtain ⟨h1, h2⟩ := h
  by_cases hp : f ∈ preferredList
  · have hmem : f ∈ preferredList.filter (fun g => fields.contains g) :=
      List.mem_filter.2 ⟨hp, List.elem_iff.mpr hf⟩
    rw [h1] at hmem
    cases hmem
  · have hcf : preferredList.contains f = false := by
      cases hc : preferredList.contains f
      · rfl
      · exact absurd (List.elem_iff.mp hc) hp
    have hmem : f ∈ fields.filter (fun g => !preferredList.contains g) :=
      List.mem_filter.2 ⟨hf, by rw [hcf]; rfl⟩
    have : f ∈ sortedLex (fields.filter (fun g => !preferredList.contains g)) :=
      (mem_sortedLex _ _).2 hmem
    rw [h2] at this
    cases this

theorem convert_ok_inv (text : List Char) (res : ConvertResult)
    (h : convert text = .ok res) :
    ∃ block spans rows, findRowsBlock text = .ok block ∧
      extractRowTables block = .ok spans ∧ parseAll spans = .ok rows ∧
      rows ≠ [] ∧
      res.fieldnames = preferredFieldOrder
        ((fieldUnion rows).filter (fun f => f ≠ "seller")) ∧
      res.records = rows ∧
      res.csvRows = rows.map (fun r =>
        emitRow res.fieldnames (r.filter (fun kv => kv.1 ≠ "seller"))) := by
  unfold convert at h
  split at h
  · cases h
  next block heq =>
    split at h
    · cases h
    next spans heq2 =>
      split at h
      · cases h
      next rows heq3 =>
        split at h
        · cases h
        next hne =>
          injection h with h
          refine ⟨block, spans, rows, heq, heq2, heq3,
            by simpa [List.isEmpty_iff] using hne, ?_, ?_, ?_⟩ <;> rw [← h]

/-- Counterexample to claim C1 as stated: on a valid document whose rows
array holds one well-formed record carrying only the denylisted seller
field, conversion succeeds and returns the one row, but the schema is
empty, not non-empty. -/
theorem convert_seller_only :
    convert sellerOnlyText = .ok ⟨[], [[("seller", Value.int 1)]], [[]]⟩ := by
  decide

/-- Claim C1 (amended): for every input in which the rows block is located
and split into a non-empty list of spans that all parse, conversion
succeeds and returns exactly one record per span; the schema is non-empty
provided some record carries a field other than the denylisted seller
field (with only denylisted fields the schema is empty). -/
theorem convert_row_count (text block : List Char) (spans : List (List Char))
    (hb : findRowsBlock text = .ok block)
    (hs : extractRowTables block = .ok spans)
    (hne : spans ≠ [])
    (hwf : ∀ s ∈ spans, (parseRowTable s).isOk) :
    ∃ res, convert text = .ok res ∧ res.records.length = spans.length ∧
      ((∃ s ∈ spans, ∃ r, parseRowTable s = .ok r ∧
          ∃ kv ∈ r, kv.1 ≠ "seller") → res.fieldnames ≠ []) := by
  obtain ⟨rows, hrows⟩ := parseAll_ok_of_isOk spans hwf
  have hlen := parseAll_length spans rows hrows
  have hempty : rows.isEmpty = false := by
    cases rows with
    | nil => exact absurd (List.length_eq_zero.mp hlen.symm) hne
    | cons a as => rfl
  have hc : convert text = .ok
      ⟨preferredFieldOrder ((fieldUnion rows).filter (fun f => f ≠ "seller")),
       rows,
       rows.map (fun r =>
         emitRow
           (preferredFieldOrder ((fieldUnion rows).filter (fun f => f ≠ "seller")))
           (r.filter (fun kv => kv.1 ≠ "seller")))⟩ := by
    unfold convert
    simp only [hb, hs, hrows, hempty, Bool.false_eq_true, if_false]
  refine ⟨_, hc, hlen, ?_⟩
  rintro ⟨s, hsmem, r, hpr, kv, hkv, hkvne⟩
  obtain ⟨r2, hr2mem, hpr2⟩ := parseAll_mem spans rows hrows s hsmem
  rw [hpr] at hpr2
  injection hpr2 with hreq
  subst hreq
  have hk : kv.1 ∈ fieldUnion rows := by
    unfold fieldUnion
    rw [List.mem_dedup, List.mem_flatMap]
    exact ⟨r, hr2mem, List.mem_map.2 ⟨kv, hkv, rfl⟩⟩
  have hk2 : kv.1 ∈ (fieldUnion rows).filter (fun f => f ≠ "seller") :=
    List.mem_filter.2 ⟨hk, by simpa using hkvne⟩
  exact preferredFieldOrder_ne_nil _ _ hk2

/-- Witness for claim C1 on the seller-and-name document. -/
theorem convert_row_count_witness :
    ∃ res, convert sellerNameText = .ok res ∧
      res.records.length = ([sellerNameSpan] : List (List Char)).length ∧
      ((∃ s ∈ ([sellerNameSpan] : List (List Char)), ∃ r, parseRowTable s = .ok r ∧
          ∃ kv ∈ r, kv.1 ≠ "seller") → res.fieldnames ≠ []) :=
  convert_row_count sellerNameText sellerNameBlock [sellerNameSpan]
    (by decide) (by decide) (by decide) (by decide)

/-- Counterexample to claim C3 as stated: a non-empty record set whose
union of field names minus the denylist is empty does not make the
conversion raise; it succeeds and produces an empty-schema output. -/
theorem empty_schema_succeeds :
    convert sellerPairText =
      .ok ⟨[], [[("seller", Value.str "x")], [("seller", Value.str "y")]],
           [[], []]⟩ := by
  decide

/-- Claim C3 (amended): schema unification itself never fails; the only
emptiness check in the conversion is on the record list, so conversion
fails with the no-records-parsed error when the parsed record list is
empty, and any successful conversion carries a non-empty record list,
while an empty schema over non-empty records is a successful outcome. -/
theorem unifier_failure_policy :
    (∀ text res, convert text = .ok res → res.records ≠ []) ∧
    (∀ text block spans, findRowsBlock text = .ok block →
      extractRowTables block = .ok spans → parseAll spans = .ok [] →
      convert text = .error .noRowsParsed) := by
  constructor
  · intro text res h
    obtain ⟨_, _, rows, _, _, _, hne, _, hrec, _⟩ := convert_ok_inv text res h
    rw [hrec]
    exact hne
  · intro text block spans hb hs hp
    unfold convert
    simp [hb, hs, hp]

/-- Witness for claim C3 on the empty rows array document. -/
theorem unifier_failure_policy_witness :
    convert emptyRowsText = .error .noRowsParsed :=
  unifier_failure_policy.2 emptyRowsText "\x7b\x7d".data []
    (by decide) (by decide) (by decide)

theorem lookupValue_filter_ne (k : String) (hk : k ≠ "seller") (row : Record) :
    lookupValue k (row.filter (fun kv => kv.1 ≠ "seller")) = lookupValue k row := by
  unfold lookupValue
  induction row with
  | nil => rfl
  | cons kv rest ih =>
    cases hb : (kv.1 == k) with
    | true =>
      have hkv : kv.1 = k := beq_iff_eq.mp hb
      rw [List.filter_cons_of_pos (by simp [hkv, hk]),
        List.find?_cons, List.find?_cons, hb]
    | false =>
      by_cases h1 : kv.1 = "seller"
      · rw [List.filter_cons_of_neg (by simp [h1]), List.find?_cons, hb]
        exact ih
      · rw [List.filter_cons_of_pos (by simp [h1]),
          List.find?_cons, List.find?_cons, hb]
        exact ih

theorem seller_not_mem_preferredFieldOrder (fields : List String)
    (hf : "seller" ∉ fields) : "seller" ∉ preferredFieldOrder fields := by
  unfold preferredFieldOrder
  intro h
  rcases List.mem_append.1 h with h | h
  · have hmem := (List.mem_filter.1 h).1
    revert hmem
    decide
  · exact hf (List.mem_filter.1 ((mem_sortedLex _ _).1 h)).1

/-- Claim C7: the denylisted seller field never reaches the output: it is
absent from the schema of every successful conversion, and emitting a row
is invariant under first deleting the seller field from the record, so no
emitted cell is derived from it. -/
theorem denylist_enforced (text : List Char) (res : ConvertResult)
    (h : convert text = .ok res) :
    "seller" ∉ res.fieldnames ∧
    ∀ row : Record,
      emitRow res.fieldnames (row.filter (fun kv => kv.1 ≠ "seller")) =
        emitRow res.fieldnames row := by
  obtain ⟨_, _, rows, _, _, _, _, hfn, _, _⟩ := convert_ok_inv text res h
  have hsel : "seller" ∉ res.fieldnames := by
    rw [hfn]
    apply seller_not_mem_preferredFieldOrder
    intro hmem
    have hcon := (List.mem_filter.1 hmem).2
    simp at hcon
  refine ⟨hsel, ?_⟩
  intro row
  unfold emitRow
  apply List.map_congr_left
  intro k hkmem
  have hk : k ≠ "seller" := fun e => hsel (e ▸ hkmem)
  rw [lookupValue_filter_ne k hk row]

/-- Witness for claim C7 on the sample document, with a record that does
carry a seller field. -/
theorem denylist_enforced_witness :
    "seller" ∉ sampleResult.fieldnames ∧
    emitRow sampleResult.fieldnames
        (([("seller", Value.int 9), ("name", Value.str "x")] : Record).filter
          (fun kv => kv.1 ≠ "seller")) =
      emitRow sampleResult.fieldnames
        ([("seller", Value.int 9), ("name", Value.str "x")] : Record) :=
  ⟨(denylist_enforced sampleText sampleResult (by decide)).1,
   (denylist_enforced sampleText sampleResult (by decide)).2 _⟩

theorem preferredFieldOrder_spec (rows : List Record) :
    preferredFieldOrder ((fieldUnion rows).filter (fun f => f ≠ "seller")) =
      specUnify rows := by
  unfold preferredFieldOrder specUnify
  dsimp only
  congr 1
  · apply List.filter_congr
    intro f _
    rw [Bool.eq_iff_iff]
    constructor
    · intro hc
      obtain ⟨hu, hns⟩ := List.mem_filter.1 (List.elem_iff.mp hc)
      have hne : f ≠ "seller" := by simpa using hns
      rw [Bool.and_eq_true]
      constructor
      · simp [Bool.not_eq_true', beq_eq_false_iff_ne, hne]
      · unfold fieldUnion at hu
        rw [List.mem_dedup, List.mem_flatMap] at hu
        obtain ⟨r, hr, hk⟩ := hu
        rw [List.any_eq_true]
        exact ⟨r, hr, List.elem_iff.mpr hk⟩
    · intro hrhs
      rw [Bool.and_eq_true] at hrhs
      obtain ⟨h1, h2⟩ := hrhs
      have hne : f ≠ "seller" := by
        rw [Bool.not_eq_true'] at h1
        exact beq_eq_false_iff_ne.mp h1
      rw [List.any_eq_true] at h2
      obtain ⟨r, hr, hk⟩ := h2
      apply List.elem_iff.mpr
      apply List.mem_filter.2
      refine ⟨?_, by simpa using hne⟩
      unfold fieldUnion
      rw [List.mem_dedup, List.mem_flatMap]
      exact ⟨r, hr, List.elem_iff.mp hk⟩
  · congr 1
    rw [List.filter_filter]
    unfold fieldUnion
    apply List.filter_congr
    intro f _
    cases hc : preferredList.contains f with
    | true => simp [hc]
    | false =>
      rw [Bool.eq_iff_iff]
      simp [hc, beq_eq_false_iff_ne]

/-- Claim C6: for every successful conversion the computed schema equals
the specification description: each preferred-order name present among
the field names of the records, in the fixed preferred order, followed by
the remaining present names sorted lexicographically, with the denylisted
name removed; and on the fields z, index, name, a the resulting order is
index, name, a, z. -/
theorem schema_unification :
    (∀ text res, convert text = .ok res →
      res.fieldnames = specUnify res.records) ∧
    preferredFieldOrder ["z", "index", "name", "a"] =
      ["index", "name", "a", "z"] := by
  constructor
  · intro text res h
    obtain ⟨_, _, rows, _, _, _, _, hfn, hrec, _⟩ := convert_ok_inv text res h
    rw [hfn, hrec]
    exact preferredFieldOrder_spec rows
  · decide

/-- Witness for claim C6 on the sample document. -/
theorem schema_unification_witness :
    sampleResult.fieldnames = specUnify sampleResult.records :=
  schema_unification.1 sampleText sampleResult (by decide)

theorem getElem?_of_getD (l : List Char) (i : Nat) (c : Char)
    (hi : i < l.length) (h : l.getD i ' ' = c) : l[i]? = some c := by
  rw [List.getD_eq_getElem?_getD, List.getElem?_eq_getElem hi] at h
  rw [List.getElem?_eq_getElem hi]
  simpa using h

theorem seg_braceDelimited (text : List Char) (start i : Nat)
    (hsi : start ≤ i) (hlt : i < text.length)
    (hb : text.getD start ' ' = '{') (he : text.getD i ' ' = '}') :
    BraceDelimited (seg text start (i + 1)) := by
  unfold BraceDelimited seg
  have hlen : ((text.drop start).take (i + 1 - start)).length = i + 1 - start := by
    rw [List.length_take, List.length_drop]
    omega
  refine ⟨?_, ?_, ?_⟩
  · intro hcon
    rw [hcon] at hlen
    simp at hlen
    omega
  · rw [List.headD_eq_head?, List.head?_eq_getElem?, List.getElem?_take,
      if_pos (by omega : 0 < i + 1 - start), List.getElem?_drop]
    rw [show start + 0 = start by omega]
    rw [getElem?_of_getD text start '{' (by omega) hb]
    rfl
  · rw [List.getLast?_eq_getElem?, hlen,
      show i + 1 - start - 1 = i - start by omega, List.getElem?_take,
      if_pos (by omega : i - start < i + 1 - start), List.getElem?_drop,
      show start + (i - start) = i by omega]
    exact getElem?_of_getD text i '}' hlt he

theorem extractBalAux_ok_shape (text : List Char) (start : Nat)
    (_hs : start < text.length) (hb : text.getD start ' ' = '{') :
    ∀ fuel i depth span, start ≤ i →
      extractBalAux text start fuel i depth = .ok span → BraceDelimited span := by
  intro fuel
  induction fuel with
  | zero =>
    intro i depth span _ h
    unfold extractBalAux at h
    cases h
  | succ n ih =>
    intro i depth span hsi h
    unfold extractBalAux at h
    dsimp only at h
    split at h
    next hlt =>
      split at h
      next => exact ih _ _ _ (by unfold skipLuaString; omega) h
      next =>
        split at h
        next => exact ih _ _ _ (by omega) h
        next =>
          split at h
          next hcl =>
            split at h
            next =>
              injection h with h
              subst h
              exact seg_braceDelimited text start i hsi hlt hb hcl
            next => exact ih _ _ _ (by omega) h
          next => exact ih _ _ _ (by omega) h
    next => cases h

theorem extractBalancedBraces_ok_shape (text : List Char) (start : Nat)
    (span : List Char) (h : extractBalancedBraces text start = .ok span) :
    BraceDelimited span := by
  unfold extractBalancedBraces at h
  split at h
  next hc =>
    exact extractBalAux_ok_shape text start hc.1 hc.2 _ start 0 span le_rfl h
  next => cases h

theorem extractBalAux_error (text : List Char) (start : Nat) :
    ∀ fuel i depth e, extractBalAux text start fuel i depth = .error e →
      e = .unbalancedBraces := by
  intro fuel
  induction fuel with
  | zero =>
    intro i depth e h
    unfold extractBalAux at h
    injection h with h
    exact h.symm
  | succ n ih =>
    intro i depth e h
    unfold extractBalAux at h
    dsimp only at h
    split at h
    next =>
      split at h
      next => exact ih _ _ _ h
      next =>
        split at h
        next => exact ih _ _ _ h
        next =>
          split at h
          next =>
            split at h
            next => cases h
            next => exact ih _ _ _ h
          next => exact ih _ _ _ h
    next =>
      injection h with h
      exact h.symm

theorem extractBalancedBraces_error (text : List Char) (start : Nat)
    (e : PyError) (h : extractBalancedBraces text start = .error e) :
    e = .unbalancedBraces ∨ e = .startNotBrace := by
  unfold extractBalancedBraces at h
  split at h
  · exact Or.inl (extractBalAux_error text start _ _ _ _ h)
  · injection h with h
    exact Or.inr h.symm

theorem extractRowTablesAux_mem (inner : List Char) :
    ∀ fuel i acc spans, extractRowTablesAux inner fuel i acc = .ok spans →
      (∀ s ∈ acc, BraceDelimited s) → ∀ s ∈ spans, BraceDelimited s := by
  intro fuel
  induction fuel with
  | zero =>
    intro i acc spans h hacc
    unfold extractRowTablesAux at h
    injection h with h
    subst h
    exact hacc
  | succ n ih =>
    intro i acc spans h hacc
    unfold extractRowTablesAux at h
    dsimp only at h
    split at h
    next =>
      split at h
      next => exact ih _ _ _ h hacc
      next =>
        split at h
        next => exact ih _ _ _ h hacc
        next =>
          split at h
          next => exact ih _ _ _ h hacc
          next =>
            split at h
            next e heq => cases h
            next rowText heq =>
              refine ih _ _ _ h ?_
              intro s hsmem
              rcases List.mem_append.1 hsmem with hsmem | hsmem
              · exact hacc s hsmem
              · have hsr := List.mem_singleton.mp hsmem
                subst hsr
                exact extractBalancedBraces_ok_shape inner _ s heq
    next =>
      injection h with h
      subst h
      exact hacc

theorem extractRowTables_mem (rowsBlock : List Char)
    (spans : List (List Char)) (h : extractRowTables rowsBlock = .ok spans) :
    ∀ s ∈ spans, BraceDelimited s := by
  unfold extractRowTables at h
  dsimp only at h
  split at h
  · exact extractRowTablesAux_mem _ _ _ _ _ h (by intro s hs; cases hs)
  · cases h

theorem parseRowTableAux_error (s : List Char) :
    ∀ fuel i row e, parseRowTableAux s fuel i row = .error e →
      e = .unbalancedBraces ∨ e = .startNotBrace := by
  intro fuel
  induction fuel with
  | zero =>
    intro i row e h
    unfold parseRowTableAux at h
    cases h
  | succ n ih =>
    intro i row e h
    unfold parseRowTableAux at h
    dsimp only at h
    split at h
    next =>
      split at h
      next => cases h
      next keyStart heq1 =>
        split at h
        next => cases h
        next keyEnd heq2 =>
          split at h
          next => cases h
          next eqPos heq3 =>
            split at h
            next =>
              split at h
              next => exact ih _ _ _ h
              next =>
                split at h
                next =>
                  split at h
                  next e2 heq4 =>
                    injection h with h
                    subst h
                    exact extractBalancedBraces_error s _ _ heq4
                  next raw heq4 => exact ih _ _ _ h
                next => exact ih _ _ _ h
            next => cases h
    next => cases h

theorem pyStrip_of_braceDelimited (s : List Char) (h : BraceDelimited s) :
    pyStrip s = s := by
  obtain ⟨hne, hh, hl⟩ := h
  unfold pyStrip
  have hd1 : s.dropWhile pyIsSpace = s := by
    cases s with
    | nil => rfl
    | cons c cs =>
      have hc : c = '{' := by simpa using hh
      rw [List.dropWhile_cons, hc]
      simp [pyIsSpace]
  rw [hd1]
  have hd2 : s.reverse.dropWhile pyIsSpace = s.reverse := by
    cases hr : s.reverse with
    | nil => rfl
    | cons c cs =>
      have hcl : c = '}' := by
        have hrev := List.head?_reverse s
        rw [hr, hl] at hrev
        simpa using hrev
      rw [List.dropWhile_cons, hcl]
      simp [pyIsSpace]
  rw [hd2, List.reverse_reverse]

theorem parseRowTable_not_malformed (s : List Char) (h : BraceDelimited s) :
    parseRowTable s ≠ .error .rowTableNotTable := by
  unfold parseRowTable
  rw [pyStrip_of_braceDelimited s h]
  dsimp only
  rw [if_pos ⟨h.2.1, h.2.2⟩]
  intro hc
  rcases parseRowTableAux_error _ _ _ _ _ hc with h1 | h1 <;> cases h1

/-- Claim C9: every element span produced by the array splitter begins
with an opening brace and ends with a closing brace, so the record parser
precondition holds on it and the not-a-table error branch of the record
parser is unreachable for pipeline spans. -/
theorem row_spans_brace_delimited (rowsBlock : List Char)
    (spans : List (List Char)) (s : List Char)
    (h : extractRowTables rowsBlock = .ok spans) (hmem : s ∈ spans) :
    BraceDelimited s ∧ parseRowTable s ≠ .error .rowTableNotTable := by
  have hbd := extractRowTables_mem rowsBlock spans h s hmem
  exact ⟨hbd, parseRowTable_not_malformed s hbd⟩

/-- Witness for claim C9 on the seller-and-name row span. -/
theorem row_spans_brace_delimited_witness :
    BraceDelimited sellerNameSpan ∧
    parseRowTable sellerNameSpan ≠ .error .rowTableNotTable :=
  row_spans_brace_delimited sellerNameBlock [sellerNameSpan] sellerNameSpan
    (by decide) (by decide)

theorem charToNat_inj (x y : Char) (h : x.toNat = y.toNat) : x = y := by
  apply Char.ext
  apply UInt32.ext
  simpa [Char.toNat] using h

theorem charListLe_total (a b : List Char) :
    charListLe a b = true ∨ charListLe b a = true := by
  induction a generalizing b with
  | nil => exact Or.inl rfl
  | cons x xs ih =>
    cases b with
    | nil => exact Or.inr rfl
    | cons y ys =>
      unfold charListLe
      by_cases h1 : x.toNat < y.toNat
      · exact Or.inl (by rw [if_pos h1])
      · by_cases h2 : y.toNat < x.toNat
        · exact Or.inr (by rw [if_pos h2])
        · rcases ih ys with h | h
          · exact Or.inl (by rw [if_neg h1, if_neg h2]; exact h)
          · exact Or.inr (by rw [if_neg h2, if_neg h1]; exact h)

theorem charListLe_trans (a b c : List Char) (h1 : charListLe a b = true)
    (h2 : charListLe b c = true) : charListLe a c = true := by
  induction a generalizing b c with
  | nil => rfl
  | cons x xs ih =>
    cases b with
    | nil => unfold charListLe at h1; cases h1
    | cons y ys =>
      cases c with
      | nil => unfold charListLe at h2; cases h2
      | cons z zs =>
        unfold charListLe at h1 h2 ⊢
        by_cases hxy : x.toNat < y.toNat
        · by_cases hyz : y.toNat < z.toNat
          · rw [if_pos (by omega : x.toNat < z.toNat)]
          · by_cases hzy : z.toNat < y.toNat
            · rw [if_neg hyz, if_pos hzy] at h2; cases h2
            · rw [if_pos (by omega : x.toNat < z.toNat)]
        · by_cases hyx : y.toNat < x.toNat
          · rw [if_neg hxy, if_pos hyx] at h1; cases h1
          · by_cases hyz : y.toNat < z.toNat
            · rw [if_pos (by omega : x.toNat < z.toNat)]
            · by_cases hzy : z.toNat < y.toNat
              · rw [if_neg hyz, if_pos hzy] at h2; cases h2
              · rw [if_neg hxy, if_neg hyx] at h1
                rw [if_neg hyz, if_neg hzy] at h2
                rw [if_neg (by omega : ¬ x.toNat < z.toNat),
                  if_neg (by omega : ¬ z.toNat < x.toNat)]
                exact ih ys zs h1 h2

theorem charListLe_antisymm (a b : List Char) (h1 : charListLe a b = true)
    (h2 : charListLe b a = true) : a = b := by
  induction a generalizing b with
  | nil =>
    cases b with
    | nil => rfl
    | cons y ys => unfold charListLe at h2; cases h2
  | cons x xs ih =>
    cases b with
    | nil => unfold charListLe at h1; cases h1
    | cons y ys =>
      unfold charListLe at h1 h2
      by_cases hxy : x.toNat < y.toNat
      · rw [if_neg (by omega : ¬ y.toNat < x.toNat), if_pos hxy] at h2
        cases h2
      · by_cases hyx : y.toNat < x.toNat
        · rw [if_neg hxy, if_pos hyx] at h1
          cases h1
        · rw [if_neg hxy, if_neg hyx] at h1
          rw [if_neg hyx, if_neg hxy] at h2
          rw [charToNat_inj x y (by omega), ih ys h1 h2]

theorem strLe_total (a b : String) : strLe a b = true ∨ strLe b a = true :=
  charListLe_total a.data b.data

theorem strLe_trans (a b c : String) (h1 : strLe a b = true)
    (h2 : strLe b c = true) : strLe a c = true :=
  charListLe_trans a.data b.data c.data h1 h2

theorem strLe_antisymm (a b : String) (h1 : strLe a b = true)
    (h2 : strLe b a = true) : a = b :=
  String.ext (charListLe_antisymm a.data b.data h1 h2)

theorem insertSorted_perm (x : String) (l : List String) :
    (insertSorted x l).Perm (x :: l) := by
  induction l with
  | nil => exact List.Perm.refl _
  | cons y ys ih =>
    unfold insertSorted
    by_cases h : strLe x y = true
    · rw [if_pos h]
    · rw [if_neg h]
      exact (ih.cons y).trans (List.Perm.swap x y ys)

theorem sortedLex_perm (l : List String) : (sortedLex l).Perm l := by
  induction l with
  | nil => exact List.Perm.refl _
  | cons x xs ih =>
    unfold sortedLex
    exact (insertSorted_perm x (sortedLex xs)).trans (ih.cons x)

theorem sorted_insertSorted (x : String) (l : List String)
    (h : List.Sorted (fun a b => strLe a b = true) l) :
    List.Sorted (fun a b => strLe a b = true) (insertSorted x l) := by
  induction l with
  | nil => simp [insertSorted]
  | cons y ys ih =>
    rw [List.sorted_cons] at h
    unfold insertSorted
    by_cases hxy : strLe x y = true
    · rw [if_pos hxy, List.sorted_cons]
      refine ⟨?_, List.sorted_cons.mpr h⟩
      intro b hb
      rcases List.mem_cons.1 hb with hb | hb
      · rw [hb]; exact hxy
      · exact strLe_trans x y b hxy (h.1 b hb)
    · rw [if_neg hxy, List.sorted_cons]
      refine ⟨?_, ih h.2⟩
      intro b hb
      rcases (mem_insertSorted x b ys).1 hb with hb | hb
      · rw [hb]
        rcases strLe_total x y with hc | hc
        · exact absurd hc hxy
        · exact hc
      · exact h.1 b hb

theorem sortedLex_sorted (l : List String) :
    List.Sorted (fun a b => strLe a b = true) (sortedLex l) := by
  induction l with
  | nil => simp [sortedLex]
  | cons x xs ih =>
    unfold sortedLex
    exact sorted_insertSorted x (sortedLex xs) ih

theorem sortedLex_eq_of_perm (l1 l2 : List String) (h : l1.Perm l2) :
    sortedLex l1 = sortedLex l2 :=
  @List.eq_of_perm_of_sorted String (fun a b => strLe a b = true)
    ⟨strLe_antisymm⟩ _ _
    ((sortedLex_perm l1).trans (h.trans (sortedLex_perm l2).symm))
    (sortedLex_sorted l1) (sortedLex_sorted l2)

/-- The schema does not depend on the enumeration order of the collected
field name set: the preferred prefix is selected by membership alone and
the remainder is sorted, so any two enumerations of the same names give
the same schema.  This justifies modelling the Python set by its first
occurrence enumeration. -/
theorem preferredFieldOrder_perm (l1 l2 : List String) (h : l1.Perm l2) :
    preferredFieldOrder l1 = preferredFieldOrder l2 := by
  unfold preferredFieldOrder
  dsimp only
  congr 1
  · apply List.filter_congr
    intro f _
    rw [Bool.eq_iff_iff]
    constructor
    · intro hc
      exact List.elem_iff.mpr (h.mem_iff.1 (List.elem_iff.mp hc))
    · intro hc
      exact List.elem_iff.mpr (h.mem_iff.2 (List.elem_iff.mp hc))
  · exact sortedLex_eq_of_perm _ _ (h.filter _)
